import Mathlib

/-!
Verification of the batch composition and result demultiplexing engine of
PyNAM (`pynam/network.py`).

Shallow embedding conventions:
* spike times are rationals (`ℚ`), sample tags and neuron indices are naturals;
* the numpy flat arrays `(tF, kF, nF)` produced by `NetworkInstance.flatten`
  are modelled as a single list of triples `(time, tag, neuron)`;
* `np.argsort(tF)` is modelled as a stable sort by time, and
  `np.lexsort((kF, tF))` — whose *last* key `tF` is the primary key — as a
  stable sort by time with the tag as tie-break;
* `bisect.bisect_left` / `bisect.bisect_right` are implemented exactly as the
  Python binary search loops (fuel-based so that they compute structurally);
* functions that can raise return `Option`: Python `max([])` raises
  `ValueError`; `flatten` raises `TypeError` on a zero-neuron train list
  (its `reduce` has no initialiser) and `IndexError` on tag lists shorter
  than the spike-time lists, and the functions built on it (`match_static`,
  `build_analysis_static`, `calculate_latencies`, `calculate_output_matrix`)
  propagate that raise;
* `np.random` draws are threaded explicitly as oracle arguments, one
  independent cell per call site of the Python code.
-/

/-- A flattened spike event: `(time, sample tag, neuron index)`. -/
abbrev Spike : Type := ℚ × ℕ × ℕ

/-- Ordering used to model `np.argsort(tF)`: compare by spike time. -/
def timeRel (a b : Spike) : Prop := a.1 ≤ b.1

instance : DecidableRel timeRel := fun a b => inferInstanceAs (Decidable (a.1 ≤ b.1))

/-- Ordering used to model `np.lexsort((kF, tF))`: the last key `tF` is the
primary sort key, the tag `kF` breaks ties. -/
def timeTagRel (a b : Spike) : Prop := a.1 < b.1 ∨ (a.1 = b.1 ∧ a.2.1 ≤ b.2.1)

instance : DecidableRel timeTagRel := fun a b =>
  inferInstanceAs (Decidable (a.1 < b.1 ∨ (a.1 = b.1 ∧ a.2.1 ≤ b.2.1)))

namespace NetworkInstance

/-- The enumeration part of `NetworkInstance.flatten`: iterate over all neurons
`i` and all spike positions `j` and collect `(times[i][j], indices[i][j], i)`
in order.  (Python then sorts the three parallel arrays.)  The `getD`
defaults are never consulted on the domain guarded by `flattenOk` below,
which mirrors exactly the inputs on which the Python indexing is in
bounds. -/
def flattenRaw (times : List (List ℚ)) (indices : List (List ℕ)) : List Spike :=
  (List.range times.length).flatMap (fun i =>
    (List.range ((times.getD i []).length)).map (fun j =>
      ((times.getD i []).getD j 0, ((indices.getD i []).getD j 0, i))))

/-- The exact condition under which Python's `flatten` does not raise:
`reduce` over `map(len, times)` with no initializer raises `TypeError` on a
zero-neuron list (`times = []`), and the fill loop reads `indices[i][j]` for
every `i < len(times)` and `j < len(times[i])`, raising `IndexError` when
`indices` (or `indices[i]`) is too short.  `(indices.getD i []).length` is
`0` when `i` is out of range of `indices`, so the inequality below also
covers the outer `IndexError` (a neuron with at least one spike but no tag
list). -/
def flattenOk (times : List (List ℚ)) (indices : List (List ℕ)) : Bool :=
  !times.isEmpty &&
    (List.range times.length).all (fun i =>
      decide ((times.getD i []).length ≤ (indices.getD i []).length))

/-- `NetworkInstance.flatten`: flatten the per-neuron spike times and tags and
sort either by time (`sort_by_sample=False`, `np.argsort(tF)`) or by time with
the tag as tie-break (`sort_by_sample=True`, `np.lexsort((kF, tF))` whose last
key `tF` is the primary key).  Returns `none` exactly where the Python code
raises (`TypeError` from `reduce` on a zero-neuron train list, `IndexError`
on tag lists shorter than the spike-time lists). -/
def flatten (times : List (List ℚ)) (indices : List (List ℕ))
    (sort_by_sample : Bool) : Option (List Spike) :=
  if flattenOk times indices then
    some (if sort_by_sample then List.insertionSort timeTagRel (flattenRaw times indices)
          else List.insertionSort timeRel (flattenRaw times indices))
  else none

end NetworkInstance

/-- The loop of Python `bisect.bisect_left(a, x)`, with explicit fuel (the
loop runs at most `len a` times since `hi - lo` strictly decreases). -/
def bisectLeftLoop [LinearOrder α] (a : List α) (x d : α) : ℕ → ℕ → ℕ → ℕ
  | 0, lo, _ => lo
  | fuel + 1, lo, hi =>
    if lo < hi then
      if a.getD ((lo + hi) / 2) d < x then bisectLeftLoop a x d fuel ((lo + hi) / 2 + 1) hi
      else bisectLeftLoop a x d fuel lo ((lo + hi) / 2)
    else lo

/-- Python `bisect.bisect_left(a, x)`. -/
def bisectLeft [LinearOrder α] [Inhabited α] (a : List α) (x : α) : ℕ :=
  bisectLeftLoop a x default a.length 0 a.length

/-- The loop of Python `bisect.bisect_right(a, x)`, with explicit fuel. -/
def bisectRightLoop [LinearOrder α] (a : List α) (x d : α) : ℕ → ℕ → ℕ → ℕ
  | 0, lo, _ => lo
  | fuel + 1, lo, hi =>
    if lo < hi then
      if x < a.getD ((lo + hi) / 2) d then bisectRightLoop a x d fuel lo ((lo + hi) / 2)
      else bisectRightLoop a x d fuel ((lo + hi) / 2 + 1) hi
    else lo

/-- Python `bisect.bisect_right(a, x)`. -/
def bisectRight [LinearOrder α] [Inhabited α] (a : List α) (x : α) : ℕ :=
  bisectRightLoop a x default a.length 0 a.length

namespace NetworkInstance

/-- `NetworkInstance.match_static`: flatten and time-sort the input spikes,
then for every output spike at time `t` compute
`idx = bisect_left(tIn, t)`, decrement it if positive, and assign the tag
`kIn[idx]` when `idx` is in range (the tag was initialised to `0`).
Propagates the raise of `flatten` (as `none`). -/
def match_static (input_times : List (List ℚ)) (input_indices : List (List ℕ))
    (output_times : List (List ℚ)) :
    Option (List (List ℚ) × List (List ℕ)) :=
  match flatten input_times input_indices false with
  | none => none
  | some fl =>
    let tIn := fl.map (fun e => e.1)
    let kIn := fl.map (fun e => e.2.1)
    some (output_times, output_times.map (fun row => row.map (fun t =>
      let idx0 := bisectLeft tIn t
      let idx := if 0 < idx0 then idx0 - 1 else idx0
      if idx < tIn.length then kIn.getD idx 0 else 0)))

/-- The inner loop of `NetworkInstance.split` for one neuron: keep the events
whose tag `k` satisfies `k0 ≤ k < k1` and rebase the kept tags to `k - k0`,
preserving order. -/
def splitRow (k0 k1 : ℕ) : List ℚ → List ℕ → List ℚ × List ℕ
  | t :: ts, k :: ks =>
    let r := splitRow k0 k1 ts ks
    if k0 ≤ k ∧ k < k1 then (t :: r.1, (k - k0) :: r.2) else r
  | _, _ => ([], [])

/-- `NetworkInstance.split`: filter every neuron's events by tag range
`[k0, k1)` and rebase the retained tags. -/
def split (times : List (List ℚ)) (indices : List (List ℕ)) (k0 k1 : ℕ) :
    List (List ℚ) × List (List ℕ) :=
  let rows := List.zipWith (fun ts ks => splitRow k0 k1 ts ks) times indices
  (rows.map (fun r => r.1), rows.map (fun r => r.2))

end NetworkInstance

/-- A population: neuron count and neuron-model identifier
(`pynl.TYPE_SOURCE` is modelled as identifier `0`). -/
structure Population where
  count : ℕ
  ptype : ℕ
deriving DecidableEq

/-- `pynl.TYPE_SOURCE`, the neuron-model identifier of source populations. -/
def TYPE_SOURCE : ℕ := 0

/-- A connection `((pre_pop, pre_idx), (post_pop, post_idx), weight, delay)`. -/
structure Connection where
  pre : ℕ × ℕ
  post : ℕ × ℕ
  weight : ℚ
  delay : ℚ
deriving DecidableEq

/-- The fields of a `NetworkInstance` used by `NetworkPool.add_network`
(the parameter structs and matrices are appended verbatim by the Python
code and are not needed by any claim, so they are not modelled). -/
structure Network where
  populations : List Population
  connections : List Connection
  input_times : List (List ℚ)
  input_indices : List (List ℕ)
  input_split : List ℕ
deriving DecidableEq

/-- The fields of a `NetworkPool` relevant to the claims. -/
structure Pool where
  populations : List Population
  connections : List Connection
  input_times : List (List ℚ)
  input_indices : List (List ℕ)
  input_split : List (List ℕ)
  spatial_split : List (ℕ × ℕ)
deriving DecidableEq

namespace NetworkPool

/-- The connection rewrite of `NetworkPool.add_network`: both endpoint
population indices are offset by the pre-merge population count `nP0`;
local neuron indices, weight and delay are untouched. -/
def shiftConn (nP0 : ℕ) (c : Connection) : Connection :=
  ⟨(c.pre.1 + nP0, c.pre.2), (c.post.1 + nP0, c.post.2), c.weight, c.delay⟩

/-- `NetworkPool.add_network`: append the network's populations, connections,
input times and input tags, append one `spatial_split` boundary holding the
post-merge population and input-train counts, and rewrite the population
indices of the connections at positions `nC0 ≤ i < nC1` (exactly the newly
appended ones). -/
def add_network (pool : Pool) (net : Network) : Pool :=
  let nP0 := pool.populations.length
  let nC0 := pool.connections.length
  let populations := pool.populations ++ net.populations
  let connections0 := pool.connections ++ net.connections
  let input_times := pool.input_times ++ net.input_times
  let input_indices := pool.input_indices ++ net.input_indices
  let spatial_split := pool.spatial_split ++ [(populations.length, input_times.length)]
  let connections := connections0.mapIdx (fun i c => if nC0 ≤ i then shiftConn nP0 c else c)
  { populations := populations, connections := connections,
    input_times := input_times, input_indices := input_indices,
    input_split := pool.input_split ++ [net.input_split],
    spatial_split := spatial_split }

/-- A pool with no contents, as produced by `NetworkPool()`. -/
def emptyPool : Pool := ⟨[], [], [], [], [], []⟩

/-- `NetworkPool.add_networks`: fold `add_network` over a list of networks. -/
def add_networks (pool : Pool) (nets : List Network) : Pool :=
  nets.foldl add_network pool

/-- The slicing performed by `NetworkPool.build_analysis`: for each boundary
`b` the slice `l[last:b]` is taken, with `last` starting at `0` (there for the
population component of the spatial split on the simulator output, and for the
input component on the merged input trains and tags). -/
def sliceAt {α : Type} (a : ℕ) : List ℕ → List α → List (List α)
  | [], _ => []
  | b :: bs, l => ((l.drop a).take (b - a)) :: sliceAt b bs l

end NetworkPool

/-- The spike data of a `NetworkAnalysis` record (one temporal slice); the
parameter structs and reference matrices carried alongside are not modelled,
their geometry (`n_samples`, `n_bits_out`, `multiplicity`, burst size) is
passed explicitly to the analysis functions. -/
structure NetworkAnalysis where
  input_times : List (List ℚ)
  input_indices : List (List ℕ)
  output_times : List (List ℚ)
  output_indices : List (List ℕ)
deriving DecidableEq

namespace NetworkInstance

/-- The split loop of `NetworkInstance.build_analysis_static`: one
`NetworkAnalysis` record per consecutive pair of temporal boundaries,
with `k0` starting at `0`. -/
def analysisSlices (input_times : List (List ℚ)) (input_indices : List (List ℕ))
    (output_times : List (List ℚ)) (output_indices : List (List ℕ)) :
    ℕ → List ℕ → List NetworkAnalysis
  | _, [] => []
  | k0, k :: ks =>
    let ip := split input_times input_indices k0 k
    let op := split output_times output_indices k0 k
    ⟨ip.1, ip.2, op.1, op.2⟩ ::
      analysisSlices input_times input_indices output_times output_indices k ks

/-- `NetworkInstance.build_analysis_static`: run `match_static`, then, when no
`input_split` descriptor is given, compute the single boundary
`max(map(max, input_indices)) + 1`.  Python `max` raises `ValueError` on an
empty sequence, which is modelled by returning `none`: this happens whenever
some neuron has no input event (inner `max`) or there are no input neurons
(outer `max`). -/
def build_analysis_static (input_times : List (List ℚ))
    (input_indices : List (List ℕ)) (output_spikes : List (List ℚ))
    (input_split : List ℕ) : Option (List NetworkAnalysis) :=
  match match_static input_times input_indices output_spikes with
  | none => none
  | some mo =>
    let splits : Option (List ℕ) :=
      if input_split.isEmpty then
        match input_indices.mapM (fun l => l.max?) with
        | none => none
        | some ms =>
          match ms.max? with
          | none => none
          | some mx => some [mx + 1]
      else some input_split
    match splits with
    | none => none
    | some ks => some (analysisSlices input_times input_indices mo.1 mo.2 0 ks)

end NetworkInstance

/-- The fields of `InputParameters` used by the spike-train builder. -/
structure InputParameters where
  burst_size : ℕ
  time_window : ℚ
  isi : ℚ
  sigma_t : ℚ
  sigma_t_offs : ℚ
  p0 : ℚ
  p1 : ℚ

/-- The random draws consumed by one call of
`InputParameters.build_spike_train`: `u i` models the `np.random.uniform()`
draw for burst position `i`, `jit i` the `np.random.normal(0, sigma_t)`
jitter, and `offsJit` the deviation of `np.random.normal(offs, sigma_t_offs)`
from its mean `offs`. -/
structure Draw where
  u : ℕ → ℚ
  jit : ℕ → ℚ
  offsJit : ℚ

namespace InputParameters

/-- `InputParameters.build_spike_train`: emit up to `burst_size` spikes at
`offs + i * isi` (plus the optional jitters), keeping position `i` when
`np.random.uniform() >= p` where `p = p0` for a one-bit and `p = 1 - p1` for a
zero-bit, and sort the result. -/
def build_spike_train (p : InputParameters) (d : Draw) (value : ℕ) (offs : ℚ) :
    List ℚ :=
  let offs2 := if 0 < p.sigma_t_offs then offs + d.offsJit else offs
  let pr := if value = 1 then p.p0 else 1 - p.p1
  let res := (List.range p.burst_size).filterMap (fun i =>
    if pr ≤ d.u i then
      some (offs2 + (i : ℚ) * p.isi + (if 0 < p.sigma_t then d.jit i else 0))
    else none)
  List.insertionSort (fun a b : ℚ => a ≤ b) res

end InputParameters

/-- The running state of the loops of `NetworkBuilder.build_spike_trains`:
the per-neuron spike times and tags (as functions of the neuron index
`i * s + j`), the running clock `t` and the running sample counter `sIdx`. -/
structure BSTState where
  times : ℕ → List ℚ
  inds : ℕ → List ℕ
  t : ℚ
  sIdx : ℕ

namespace NetworkBuilder

/-- Innermost step of `build_spike_trains`: build one spike train for
`(sample, bit, replica)` and append it (and one copy of the current sample
tag per spike) to neuron `idx = i * s + j`. -/
def bstReplica (p : InputParameters) (value : ℕ) (dr : Draw) (idx : ℕ)
    (st : BSTState) : BSTState :=
  let train := p.build_spike_train dr value st.t
  { st with
    times := fun q => if q = idx then st.times q ++ train else st.times q,
    inds := fun q =>
      if q = idx then st.inds q ++ List.replicate train.length st.sIdx
      else st.inds q }

/-- One sample `l` of `build_spike_trains`: all bits and replicas, then
advance the sample counter and the clock by `time_window`. -/
def bstSample (p : InputParameters) (X : ℕ → ℕ → ℕ) (m s : ℕ)
    (orc : ℕ → ℕ → Draw) (l : ℕ) (st : BSTState) : BSTState :=
  let st2 := (List.range m).foldl (fun acc i =>
    (List.range s).foldl (fun acc2 j =>
      bstReplica p (X l i) (orc i j) (i * s + j) acc2) acc) st
  { st2 with sIdx := st2.sIdx + 1, t := st2.t + p.time_window }

/-- One input-parameter block of `build_spike_trains`: all `N` samples, then
advance the clock by `time_window * input_params_delay`. -/
def bstBlock (X : ℕ → ℕ → ℕ) (m s N : ℕ) (delay : ℚ)
    (orc : ℕ → ℕ → ℕ → Draw) (p : InputParameters) (st : BSTState) : BSTState :=
  let st2 := (List.range N).foldl (fun acc l => bstSample p X m s (orc l) l acc) st
  { st2 with t := st2.t + p.time_window * delay }

/-- Python `min` over `Option`-valued minima, where `none` models the `np.inf`
returned by the local helper `rmin` for an empty spike train. -/
def omin : Option ℚ → Option ℚ → Option ℚ
  | none, b => b
  | some x, none => some x
  | some x, some y => some (min x y)

/-- `NetworkBuilder.build_spike_trains`.  The sample matrix is given by its
shape `N × m` and entry function `X`; the multiplicity `s` comes from the
topology parameters; `oracle b l i j` holds the random draws of the call of
`build_spike_train` for block `b`, sample `l`, bit `i`, replica `j`.

Returns `none` when the Python code raises: `min` over an empty sequence of
per-neuron minima (`s * m = 0`), or `range(N, N*(len+1), N)` with step
`N = 0` (a zero-row sample matrix), which raises `ValueError`. -/
def build_spike_trains (N m : ℕ) (X : ℕ → ℕ → ℕ) (time_offs : ℚ) (s : ℕ)
    (ips : List InputParameters) (delay : ℚ)
    (oracle : ℕ → ℕ → ℕ → ℕ → Draw) :
    Option (List (List ℚ) × List (List ℕ) × List ℕ) :=
  let st0 : BSTState := ⟨fun _ => [], fun _ => [], 0, 0⟩
  let stF := ips.enum.foldl
    (fun acc bp => bstBlock X m s N delay (oracle bp.1) bp.2 acc) st0
  let input_times := (List.range (s * m)).map stF.times
  let input_indices := (List.range (s * m)).map stF.inds
  let rmins : List (Option ℚ) := input_times.map (fun ts => ts.min?)
  match rmins with
  | [] => none
  | r :: rs =>
    let min_t : Option ℚ := rs.foldl omin r
    let shifted := match min_t with
      | none => input_times
      | some mt => input_times.map (fun ts => ts.map (fun x => x - mt + time_offs))
    if N = 0 then none
    else some (shifted, input_indices,
      (List.range ips.length).map (fun b => (b + 1) * N))

end NetworkBuilder

namespace TopologyParameters

/-- `TopologyParameters.draw_weight`: return `w` when `sigma_w <= 0`,
otherwise clip the drawn value `d` (modelling `np.random.normal(w, sigma_w)`)
at zero. -/
def draw_weight (w sigma_w d : ℚ) : ℚ :=
  if sigma_w ≤ 0 then w else max 0 d

end TopologyParameters

namespace NetworkBuilder

/-- `NetworkBuilder.build_topology`.  The BiNAM training itself lives in the
external `binam` module; the trained connectivity matrix is abstracted as the
entry function `mem` over the `m × n` index grid.  `wdraw i j k l` models the
`np.random.normal(w, sigma_w)` draw of the `draw_weight` call for the
connection from replica `k` of input bit `i` to replica `l` of output bit
`j`. -/
def build_topology (m n s neuron_type : ℕ) (mem : ℕ → ℕ → ℕ) (w sigma_w : ℚ)
    (wdraw : ℕ → ℕ → ℕ → ℕ → ℚ) : List Population × List Connection :=
  let populations : List Population := [⟨m * s, TYPE_SOURCE⟩, ⟨n * s, neuron_type⟩]
  let connections := (List.range m).flatMap (fun i =>
    (List.range n).flatMap (fun j =>
      if mem i j ≠ 0 then
        (List.range s).flatMap (fun k =>
          (List.range s).map (fun l =>
            (⟨(0, i * s + k), (1, j * s + l),
              TopologyParameters.draw_weight w sigma_w (wdraw i j k l), 0⟩ :
              Connection)))
      else []))
  (populations, connections)

end NetworkBuilder

namespace NetworkAnalysis

/-- `NetworkAnalysis.calculate_latencies`; `N` is `data_params["n_samples"]`.
The entry for sample `k` is `none` (modelling `np.inf`) when the guard of the
Python code fires, and `some (tOut[iOutK] - tIn[iInK])` otherwise (with
`iInK = bisect_right(kIn, k) - 1` and likewise for the output).  The outer
`Option` propagates the raise of the two `flatten` calls. -/
def calculate_latencies (a : NetworkAnalysis) (N : ℕ) :
    Option (List (Option ℚ)) :=
  match NetworkInstance.flatten a.input_times a.input_indices true,
        NetworkInstance.flatten a.output_times a.output_indices true with
  | some fin, some fout =>
    let tIn := fin.map (fun e => e.1)
    let kIn := fin.map (fun e => e.2.1)
    let tOut := fout.map (fun e => e.1)
    let kOut := fout.map (fun e => e.2.1)
    some ((List.range N).map (fun k =>
      let rIn := bisectRight kIn k
      let rOut := bisectRight kOut k
      if rIn = 0 ∨ rOut = 0 ∨ kIn.getD (rIn - 1) 0 ≠ k ∨ kOut.getD (rOut - 1) 0 ≠ k
      then none
      else some (tOut.getD (rOut - 1) 0 - tIn.getD (rIn - 1) 0)))
  | _, _ => none

/-- The increment loop of `calculate_output_matrix` for one cell: the number
of flat positions `i` in `[i0, i1)` whose neuron index maps to bit group `c`
(`nOut[i] // s = c`). -/
def countRange (nOut : List ℕ) (s i0 i1 c : ℕ) : ℕ :=
  ((List.range' i0 (i1 - i0)).filter (fun i => nOut.getD i 0 / s = c)).length

/-- `NetworkAnalysis.calculate_output_matrix`; the matrix shape `N × n` comes
from `mat_out.shape` (resp. the data parameters), `s` is the multiplicity and
`output_burst_size` the `OutputParameters` burst size.  Cell `(k, c)` counts
the output spikes at flat positions `bisect_left(kOut,k) ≤ i <
bisect_right(kOut,k)` with `nOut[i] // s = c`, divided by
`s * output_burst_size`. -/
def calculate_output_matrix (a : NetworkAnalysis) (s N n output_burst_size : ℕ) :
    Option (List (List ℚ)) :=
  match NetworkInstance.flatten a.output_times a.output_indices true with
  | none => none
  | some fout =>
    let kOut := fout.map (fun e => e.2.1)
    let nOut := fout.map (fun e => e.2.2)
    some ((List.range N).map (fun k =>
      let i0 := bisectLeft kOut k
      let i1 := bisectRight kOut k
      (List.range n).map (fun c =>
        (countRange nOut s i0 i1 c : ℚ) / ((s : ℚ) * (output_burst_size : ℚ)))))

end NetworkAnalysis

/-- Modelled from the spec (§4.2 `match`): the tag the specification assigns
to an output spike at time `t` — that of the nearest input spike with time
`≤ t` in the time-sorted flattened input pairs, falling back to the earliest
input spike's tag, and to `0` for an empty input stream.  Used only to compare
the specified matching rule with `match_static`. -/
def specMatchTag (ins : List (ℚ × ℕ)) (t : ℚ) : ℕ :=
  let sorted := List.insertionSort (fun a b : ℚ × ℕ => a.1 ≤ b.1) ins
  let c := sorted.countP (fun p => p.1 ≤ t)
  if 0 < c then (sorted.getD (c - 1) (0, 0)).2
  else if 0 < sorted.length then (sorted.getD 0 (0, 0)).2
  else 0

/-- The flattened `(time, tag)` pairs of a tagged spike-train list, in
enumeration order; the reference point for the matching claims. -/
def allPairs (times : List (List ℚ)) (indices : List (List ℕ)) : List (ℚ × ℕ) :=
  (times.zip indices).flatMap (fun p => p.1.zip p.2)

/-- The tag `match_static` assigns to one output spike at time `t`, given the
flattened time-sorted input `fl`; its body is exactly the inner lambda of
`NetworkInstance.match_static`. -/
def matchTagAt (fl : List Spike) (t : ℚ) : ℕ :=
  let tIn := fl.map (fun e => e.1)
  let kIn := fl.map (fun e => e.2.1)
  let idx0 := bisectLeft tIn t
  let idx := if 0 < idx0 then idx0 - 1 else idx0
  if idx < tIn.length then kIn.getD idx 0 else 0

/-- When `flatten` succeeds, `match_static` succeeds and tags every output
spike with `matchTagAt` of the flattened input. -/
theorem match_static_eq_map (times : List (List ℚ)) (inds : List (List ℕ))
    (outs : List (List ℚ)) (fl : List Spike)
    (hfl : NetworkInstance.flatten times inds false = some fl) :
    NetworkInstance.match_static times inds outs
      = some (outs, outs.map (fun row => row.map (matchTagAt fl))) := by
  rw [NetworkInstance.match_static, hfl]
  rfl

/-- Shape premise that makes Python's `flatten` succeed: at least one neuron
list, and every tag list at least as long as its spike-time list (in
particular, equal-shaped tagged trains qualify). -/
theorem flattenOk_of_shape (times : List (List ℚ)) (inds : List (List ℕ))
    (hne : times ≠ [])
    (hsh : ∀ i, i < times.length → (times.getD i []).length ≤ (inds.getD i []).length) :
    NetworkInstance.flattenOk times inds = true := by
  rw [NetworkInstance.flattenOk, Bool.and_eq_true, List.all_eq_true]
  refine ⟨by simpa using hne, ?_⟩
  intro i hi
  rw [List.mem_range] at hi
  exact decide_eq_true (hsh i hi)

/-- `flatten` in closed form on its non-raising domain (time-primary sort). -/
theorem flatten_eq_some (times : List (List ℚ)) (inds : List (List ℕ))
    (sbs : Bool) (hne : times ≠ [])
    (hsh : ∀ i, i < times.length → (times.getD i []).length ≤ (inds.getD i []).length) :
    NetworkInstance.flatten times inds sbs
      = some (if sbs then List.insertionSort timeTagRel (NetworkInstance.flattenRaw times inds)
              else List.insertionSort timeRel (NetworkInstance.flattenRaw times inds)) := by
  rw [NetworkInstance.flatten, if_pos (flattenOk_of_shape times inds hne hsh)]

/-- `flatten` with the time-only sort, on its non-raising domain. -/
theorem flatten_false_eq_some (times : List (List ℚ)) (inds : List (List ℕ))
    (hne : times ≠ [])
    (hsh : ∀ i, i < times.length → (times.getD i []).length ≤ (inds.getD i []).length) :
    NetworkInstance.flatten times inds false
      = some (List.insertionSort timeRel (NetworkInstance.flattenRaw times inds)) := by
  rw [flatten_eq_some times inds false hne hsh]
  rfl

/-- Equal-shaped tagged trains satisfy the length premise of `flattenOk`. -/
theorem shape_le_of_forall₂ (times : List (List ℚ)) (inds : List (List ℕ))
    (hsh : List.Forall₂ (fun ts ks => ts.length = ks.length) times inds) :
    ∀ i, i < times.length → (times.getD i []).length ≤ (inds.getD i []).length := by
  induction hsh with
  | nil => intro i hi; simp at hi
  | cons h hrest ih =>
    intro i hi
    cases i with
    | zero => simp [List.getD_cons_zero, h]
    | succ n =>
      rw [List.getD_cons_succ, List.getD_cons_succ]
      exact ih n (by simpa using hi)

/-! ### Lemmas about `bisect` and sorted lists -/

theorem getD_mono_of_sorted {α : Type} [LinearOrder α] {a : List α}
    (h : List.Sorted (· ≤ ·) a) (d : α) {i j : ℕ} (hij : i ≤ j) (hj : j < a.length) :
    a.getD i d ≤ a.getD j d := by
  rw [List.getD_eq_getElem a d (lt_of_le_of_lt hij hj), List.getD_eq_getElem a d hj]
  rcases Nat.eq_or_lt_of_le hij with rfl | hlt
  · exact le_refl _
  · exact h.rel_get_of_lt (a := ⟨i, by omega⟩) (b := ⟨j, hj⟩) hlt

/-- Loop invariant of the Python `bisect_left` binary search on a sorted
list: the result separates the elements `< x` from the rest. -/
theorem bisectLeftLoop_spec {α : Type} [LinearOrder α] (a : List α) (x d : α)
    (hsort : List.Sorted (· ≤ ·) a) :
    ∀ (fuel lo hi : ℕ), lo ≤ hi → hi ≤ a.length → hi - lo ≤ fuel →
      (∀ i, i < lo → a.getD i d < x) →
      (∀ i, hi ≤ i → i < a.length → ¬ a.getD i d < x) →
      lo ≤ bisectLeftLoop a x d fuel lo hi ∧
      bisectLeftLoop a x d fuel lo hi ≤ hi ∧
      (∀ i, i < bisectLeftLoop a x d fuel lo hi → a.getD i d < x) ∧
      (∀ i, bisectLeftLoop a x d fuel lo hi ≤ i → i < a.length → ¬ a.getD i d < x)
  | 0, lo, hi, hlohi, hhi, hfuel, hlow, hhigh => by
    have heq : lo = hi := by omega
    subst heq
    exact ⟨le_refl _, le_refl _, hlow, hhigh⟩
  | fuel + 1, lo, hi, hlohi, hhi, hfuel, hlow, hhigh => by
    by_cases hlh : lo < hi
    · have hm1 : lo ≤ (lo + hi) / 2 := by omega
      have hm2 : (lo + hi) / 2 < hi := by omega
      have hmlen : (lo + hi) / 2 < a.length := by omega
      by_cases hcmp : a.getD ((lo + hi) / 2) d < x
      · have hrw : bisectLeftLoop a x d (fuel + 1) lo hi
            = bisectLeftLoop a x d fuel ((lo + hi) / 2 + 1) hi := by
          rw [bisectLeftLoop, if_pos hlh, if_pos hcmp]
        rw [hrw]
        have hres := bisectLeftLoop_spec a x d hsort fuel ((lo + hi) / 2 + 1) hi
          (by omega) hhi (by omega)
          (fun i hi2 => by
            by_cases hio : i < lo
            · exact hlow i hio
            · exact lt_of_le_of_lt (getD_mono_of_sorted hsort d (by omega) hmlen) hcmp)
          hhigh
        exact ⟨by omega, hres.2.1, hres.2.2.1, hres.2.2.2⟩
      · have hrw : bisectLeftLoop a x d (fuel + 1) lo hi
            = bisectLeftLoop a x d fuel lo ((lo + hi) / 2) := by
          rw [bisectLeftLoop, if_pos hlh, if_neg hcmp]
        rw [hrw]
        have hres := bisectLeftLoop_spec a x d hsort fuel lo ((lo + hi) / 2)
          (by omega) (by omega) (by omega) hlow
          (fun i hmi hilen => fun hlt => hcmp
            (lt_of_le_of_lt (getD_mono_of_sorted hsort d hmi hilen) hlt))
        exact ⟨hres.1, by omega, hres.2.2.1, hres.2.2.2⟩
    · have heq : lo = hi := by omega
      have hrw : bisectLeftLoop a x d (fuel + 1) lo hi = lo := by
        rw [bisectLeftLoop, if_neg hlh]
      rw [hrw]
      subst heq
      exact ⟨le_refl _, le_refl _, hlow, hhigh⟩

/-- `bisect_left` on a sorted list: elements strictly below `x` sit exactly at
the positions below the returned index. -/
theorem bisectLeft_spec {α : Type} [LinearOrder α] [Inhabited α] (a : List α) (x : α)
    (hsort : List.Sorted (· ≤ ·) a) :
    bisectLeft a x ≤ a.length ∧
    (∀ i, i < bisectLeft a x → a.getD i default < x) ∧
    (∀ i, bisectLeft a x ≤ i → i < a.length → ¬ a.getD i default < x) := by
  have h := bisectLeftLoop_spec a x default hsort a.length 0 a.length
    (by omega) (le_refl _) (by omega) (fun i h2 => by omega) (fun i h1 h2 => by omega)
  exact ⟨h.2.1, h.2.2.1, h.2.2.2⟩

/-! ### Lemmas about `flatten` -/

instance : IsTotal Spike timeRel := ⟨fun a b => le_total a.1 b.1⟩

instance : IsTrans Spike timeRel := ⟨fun _ _ _ hab hbc => le_trans hab hbc⟩

theorem rangeMap_getD_zip :
    ∀ (ts : List ℚ) (ks : List ℕ), ts.length = ks.length →
      (List.range ts.length).map (fun j => ((ts.getD j 0 : ℚ), (ks.getD j 0 : ℕ)))
        = ts.zip ks
  | [], [], _ => rfl
  | [], _ :: _, h => by simp at h
  | _ :: _, [], h => by simp at h
  | t :: ts, k :: ks, h => by
    have ih := rangeMap_getD_zip ts ks (by simpa using h)
    simp only [List.length_cons, List.range_succ_eq_map, List.map_cons,
      List.getD_cons_zero, List.map_map, List.zip_cons_cons]
    refine congrArg (fun l => (t, k) :: l) ?_
    exact (List.map_congr_left (fun j hj => by simp)).trans ih

/-- One unfolding step of `flattenRaw`: the events of the first neuron,
followed by the events of the remaining neurons with neuron indices
shifted by one. -/
theorem flattenRaw_cons (ts : List ℚ) (ks : List ℕ) (times : List (List ℚ))
    (inds : List (List ℕ)) :
    NetworkInstance.flattenRaw (ts :: times) (ks :: inds)
      = (List.range ts.length).map (fun j => ((ts.getD j 0 : ℚ), ((ks.getD j 0 : ℕ), 0)))
        ++ (NetworkInstance.flattenRaw times inds).map
            (fun e => (e.1, (e.2.1, e.2.2 + 1))) := by
  simp only [NetworkInstance.flattenRaw, List.length_cons, List.range_succ_eq_map,
    List.flatMap_cons, List.map_flatMap, List.flatMap_map, List.getD_cons_zero,
    List.getD_cons_succ, List.map_map]
  rfl

/-- Projecting the flat enumeration to `(time, tag)` gives exactly the zipped
event pairs, provided times and tags have equal shape. -/
theorem flattenRaw_proj :
    ∀ (times : List (List ℚ)) (inds : List (List ℕ)),
      List.Forall₂ (fun a b => a.length = b.length) times inds →
      (NetworkInstance.flattenRaw times inds).map (fun e => (e.1, e.2.1))
        = allPairs times inds := by
  intro times inds h
  induction h with
  | nil => rfl
  | @cons ts ks times2 inds2 h2 hrest ih =>
    rw [flattenRaw_cons, allPairs, List.zip_cons_cons, List.flatMap_cons,
      List.map_append, List.map_map, List.map_map]
    refine congrArg₂ (· ++ ·) ?_ ?_
    · simpa [Function.comp] using rangeMap_getD_zip ts ks h2
    · simpa [Function.comp, allPairs] using ih

/-- `splitRow` is filtering by tag range followed by rebasing, on the zipped
event list of one neuron. -/
theorem splitRow_eq (k0 k1 : ℕ) :
    ∀ (ts : List ℚ) (ks : List ℕ), ts.length = ks.length →
      NetworkInstance.splitRow k0 k1 ts ks =
        (((ts.zip ks).filter (fun p => decide (k0 ≤ p.2 ∧ p.2 < k1))).map
          (fun p => (p.1, p.2 - k0))).unzip
  | [], [], _ => by simp [NetworkInstance.splitRow]
  | [], _ :: _, h => by simp at h
  | _ :: _, [], h => by simp at h
  | t :: ts, k :: ks, h => by
    have ih := splitRow_eq k0 k1 ts ks (by simpa using h)
    by_cases hk : k0 ≤ k ∧ k < k1
    · simp [NetworkInstance.splitRow, hk, ih]
    · simp [NetworkInstance.splitRow, hk, ih]

/-- What `match_static` actually assigns to an output spike at time `t`
(stated over the time-sorted flattening that a successful `flatten`
returns): the tag of an input spike achieving the greatest input-spike time
strictly below `t`; if no input spike lies strictly below `t`, the tag of an
input spike achieving the minimal time; and `0` for an empty input stream. -/
theorem matchTagAt_spec (times : List (List ℚ)) (inds : List (List ℕ))
    (hsh : List.Forall₂ (fun a b => a.length = b.length) times inds) (t : ℚ) :
    ((∃ q ∈ allPairs times inds, q.1 < t) →
      ∃ q ∈ allPairs times inds,
        q.2 = matchTagAt
          (List.insertionSort timeRel (NetworkInstance.flattenRaw times inds)) t ∧
        q.1 < t ∧
        ∀ r ∈ allPairs times inds, r.1 < t → r.1 ≤ q.1) ∧
    ((¬ ∃ q ∈ allPairs times inds, q.1 < t) → allPairs times inds ≠ [] →
      ∃ q ∈ allPairs times inds,
        q.2 = matchTagAt
          (List.insertionSort timeRel (NetworkInstance.flattenRaw times inds)) t ∧
        ∀ r ∈ allPairs times inds, q.1 ≤ r.1) ∧
    (allPairs times inds = [] →
      matchTagAt
        (List.insertionSort timeRel (NetworkInstance.flattenRaw times inds)) t = 0) := by
  set raw := NetworkInstance.flattenRaw times inds with hraw
  set fl := List.insertionSort timeRel raw with hfldef
  have hsorted : List.Sorted timeRel fl := List.sorted_insertionSort timeRel raw
  have hpp : (fl.map (fun e => (e.1, e.2.1))).Perm (allPairs times inds) := by
    have h1 := (List.perm_insertionSort timeRel raw).map (fun e => (e.1, e.2.1))
    rw [flattenRaw_proj times inds hsh] at h1
    exact h1
  have hmem : ∀ q, q ∈ allPairs times inds ↔ q ∈ fl.map (fun e => (e.1, e.2.1)) :=
    fun q => (hpp.mem_iff).symm
  set tIn := fl.map (fun e => e.1) with htdef
  set kIn := fl.map (fun e => e.2.1) with hkdef
  have htlen : tIn.length = fl.length := List.length_map _ _
  have hsorted2 : List.Sorted (· ≤ ·) tIn := by
    rw [htdef, List.Sorted, List.pairwise_map]
    exact hsorted
  have hval : ∀ i, ∀ h : i < fl.length, tIn.getD i default = (fl.get ⟨i, h⟩).1 := by
    intro i h
    rw [htdef, List.getD_eq_getElem _ _ (by simpa using h), List.getElem_map]
    rfl
  have hkval : ∀ i, ∀ h : i < fl.length, kIn.getD i 0 = (fl.get ⟨i, h⟩).2.1 := by
    intro i h
    rw [hkdef, List.getD_eq_getElem _ _ (by simpa using h), List.getElem_map]
    rfl
  have hgetmem : ∀ i, ∀ h : i < fl.length,
      ((fl.get ⟨i, h⟩).1, (fl.get ⟨i, h⟩).2.1) ∈ allPairs times inds := by
    intro i h
    rw [hmem]
    exact List.mem_map_of_mem _ (fl.get_mem _ _)
  have hidx : ∀ q, q ∈ allPairs times inds →
      ∃ i, ∃ h : i < fl.length, ((fl.get ⟨i, h⟩).1, (fl.get ⟨i, h⟩).2.1) = q := by
    intro q hq
    rw [hmem] at hq
    obtain ⟨e, he, hq2⟩ := List.mem_map.1 hq
    obtain ⟨⟨iv, hiv⟩, he2⟩ := List.mem_iff_get.1 he
    exact ⟨iv, hiv, by rw [he2]; exact hq2⟩
  obtain ⟨hble, hblow, hbhigh⟩ := bisectLeft_spec tIn t hsorted2
  set c := bisectLeft tIn t with hcdef
  have hmt : matchTagAt fl t =
      if (if 0 < c then c - 1 else c) < tIn.length
      then kIn.getD (if 0 < c then c - 1 else c) 0 else 0 := by
    rw [matchTagAt]
  refine ⟨?_, ?_, ?_⟩
  · rintro ⟨q, hqmem, hqlt⟩
    obtain ⟨i0, hi0, hq⟩ := hidx q hqmem
    have hti0 : tIn.getD i0 default < t := by
      rw [hval i0 hi0]
      rw [← hq] at hqlt
      exact hqlt
    have hc_pos : 0 < c := by
      by_contra h0
      push_neg at h0
      exact hbhigh i0 (by omega) (by omega) hti0
    have hcm1 : c - 1 < fl.length := by omega
    have hgtag : matchTagAt fl t = (fl.get ⟨c - 1, hcm1⟩).2.1 := by
      rw [hmt, if_pos hc_pos, if_pos (by omega), hkval (c - 1) hcm1]
    refine ⟨((fl.get ⟨c - 1, hcm1⟩).1, (fl.get ⟨c - 1, hcm1⟩).2.1),
      hgetmem (c - 1) hcm1, by rw [hgtag], ?_, ?_⟩
    · have := hblow (c - 1) (by omega)
      rw [hval (c - 1) hcm1] at this
      exact this
    · rintro r hrmem hrlt
      obtain ⟨i1, hi1, hr⟩ := hidx r hrmem
      have hti1 : tIn.getD i1 default < t := by
        rw [hval i1 hi1]
        rw [← hr] at hrlt
        exact hrlt
      have hi1c : i1 < c := by
        by_contra h1
        push_neg at h1
        exact hbhigh i1 h1 (by omega) hti1
      have hmono := getD_mono_of_sorted hsorted2 default
        (i := i1) (j := c - 1) (by omega) (by omega)
      rw [hval i1 hi1, hval (c - 1) hcm1] at hmono
      rw [← hr]
      exact hmono
  · rintro hno hne
    have hflne : 0 < fl.length := by
      rcases Nat.eq_zero_or_pos fl.length with h0 | h0
      · exfalso
        apply hne
        have hfle : fl = [] := List.length_eq_zero.mp h0
        have hp2 := hpp
        rw [hfle] at hp2
        simpa using (List.Perm.nil_eq (by simpa using hp2)).symm
      · exact h0
    have hc0 : c = 0 := by
      by_contra h0
      have := hblow 0 (by omega)
      rw [hval 0 hflne] at this
      exact hno ⟨((fl.get ⟨0, hflne⟩).1, (fl.get ⟨0, hflne⟩).2.1),
        hgetmem 0 hflne, this⟩
    have hgtag : matchTagAt fl t = (fl.get ⟨0, hflne⟩).2.1 := by
      have h1 : (if 0 < c then c - 1 else c) = 0 := by simp [hc0]
      rw [hmt, h1, if_pos (by omega), hkval 0 hflne]
    refine ⟨((fl.get ⟨0, hflne⟩).1, (fl.get ⟨0, hflne⟩).2.1),
      hgetmem 0 hflne, by rw [hgtag], ?_⟩
    rintro r hrmem
    obtain ⟨i1, hi1, hr⟩ := hidx r hrmem
    have hmono := getD_mono_of_sorted hsorted2 default
      (i := 0) (j := i1) (by omega) (by omega)
    rw [hval 0 hflne, hval i1 hi1] at hmono
    rw [← hr]
    exact hmono
  · intro hempty
    have hfl0 : fl.length = 0 := by
      have := hpp.length_eq
      rw [hempty] at this
      simpa using this
    have hc0 : c = 0 := by
      have := hble
      omega
    have h1 : (if 0 < c then c - 1 else c) = 0 := by simp [hc0]
    rw [hmt, h1, if_neg (by omega)]

/-- Every tag stored in the flat enumeration is either an actual element of
the supplied tag lists or the default `0`. -/
theorem flattenRaw_tag_mem (times : List (List ℚ)) (inds : List (List ℕ)) :
    ∀ e ∈ NetworkInstance.flattenRaw times inds, e.2.1 = 0 ∨ e.2.1 ∈ inds.flatten := by
  intro e he
  rw [NetworkInstance.flattenRaw, List.mem_flatMap] at he
  obtain ⟨i, hi, he2⟩ := he
  rw [List.mem_map] at he2
  obtain ⟨j, hj, he3⟩ := he2
  rw [List.mem_range] at hj
  subst he3
  by_cases hjl : j < (inds.getD i []).length
  · by_cases hil : i < inds.length
    · right
      rw [List.mem_flatten]
      refine ⟨inds.getD i [], ?_, ?_⟩
      · rw [List.getD_eq_getElem _ _ hil]
        exact List.getElem_mem _
      · rw [List.getD_eq_getElem _ _ hjl]
        exact List.getElem_mem _
    · exfalso
      have hnil : inds.getD i [] = [] := List.getD_eq_default _ _ (by omega)
      rw [hnil] at hjl
      simp at hjl
  · left
    simp only []
    rw [List.getD_eq_default _ _ (by omega)]

theorem matchTagAt_mem (times : List (List ℚ)) (inds : List (List ℕ)) (t : ℚ) :
    matchTagAt (List.insertionSort timeRel (NetworkInstance.flattenRaw times inds)) t = 0 ∨
    matchTagAt (List.insertionSort timeRel (NetworkInstance.flattenRaw times inds)) t
      ∈ inds.flatten := by
  rw [matchTagAt]
  set fl := List.insertionSort timeRel (NetworkInstance.flattenRaw times inds) with hfldef
  set idx := (if 0 < bisectLeft (fl.map (fun e => e.1)) t
    then bisectLeft (fl.map (fun e => e.1)) t - 1
    else bisectLeft (fl.map (fun e => e.1)) t) with hidxdef
  by_cases hlt : idx < (fl.map (fun e => e.1)).length
  · rw [if_pos hlt]
    have hlen : idx < fl.length := by simpa using hlt
    rw [List.getD_eq_getElem _ _ (by simpa using hlt), List.getElem_map]
    have hmem : fl.get ⟨idx, hlen⟩ ∈ NetworkInstance.flattenRaw times inds := by
      exact (List.perm_insertionSort timeRel
        (NetworkInstance.flattenRaw times inds)).mem_iff.mp (fl.get_mem _ _)
    have := flattenRaw_tag_mem times inds _ hmem
    simpa using this
  · rw [if_neg hlt]
    left
    rfl

/-! ### Lemmas about the pool -/

theorem mapIdx_const_eq_map {α : Type} (f : α → α) :
    ∀ (l : List α) (g : ℕ → α → α), (∀ i c, g i c = f c) → l.mapIdx g = l.map f
  | [], _, _ => rfl
  | a :: l, g, h => by
    rw [List.mapIdx_cons, h, List.map_cons,
      mapIdx_const_eq_map f l (fun i => g (i + 1)) (fun i c => h (i + 1) c)]

theorem mapIdx_shift {α : Type} (f : α → α) :
    ∀ (l1 l2 : List α),
      (l1 ++ l2).mapIdx (fun i c => if l1.length ≤ i then f c else c) = l1 ++ l2.map f
  | [], l2 => by
    simpa using mapIdx_const_eq_map f l2 _ (fun i c => by simp)
  | a :: l1, l2 => by
    simp only [List.cons_append, List.mapIdx_cons, List.length_cons]
    have hfun : (fun i c => if l1.length + 1 ≤ i + 1 then f c else c) =
        (fun i c => if l1.length ≤ i then f c else c) := by
      funext i c
      simp [Nat.add_le_add_iff_right]
    rw [if_neg (by omega), hfun, mapIdx_shift f l1 l2]

/-- `add_network` in closed form: all merged fields are appends, the newly
added connections are endpoint-shifted by the pre-merge population count, and
the single new boundary holds the post-merge counts. -/
theorem add_network_eq (pool : Pool) (net : Network) :
    NetworkPool.add_network pool net =
      { populations := pool.populations ++ net.populations,
        connections := pool.connections ++
          net.connections.map (NetworkPool.shiftConn pool.populations.length),
        input_times := pool.input_times ++ net.input_times,
        input_indices := pool.input_indices ++ net.input_indices,
        input_split := pool.input_split ++ [net.input_split],
        spatial_split := pool.spatial_split ++
          [(pool.populations.length + net.populations.length,
            pool.input_times.length + net.input_times.length)] } := by
  simp [NetworkPool.add_network, mapIdx_shift, List.length_append]

/-- The spatial-split boundaries produced by folding `add_network` over a
list of networks, starting from population count `p` and input-train count
`q`: running totals of the added sizes. -/
def netBounds : ℕ → ℕ → List Network → List (ℕ × ℕ)
  | _, _, [] => []
  | p, q, n :: ns =>
    (p + n.populations.length, q + n.input_times.length) ::
      netBounds (p + n.populations.length) (q + n.input_times.length) ns

/-- Cumulative lengths of a list of lists, starting from `a`. -/
def cumLens {α : Type} : ℕ → List (List α) → List ℕ
  | _, [] => []
  | a, l :: ls => (a + l.length) :: cumLens (a + l.length) ls

theorem add_networks_fields :
    ∀ (nets : List Network) (pool : Pool),
      (NetworkPool.add_networks pool nets).populations
          = pool.populations ++ (nets.map (fun n => n.populations)).flatten ∧
      (NetworkPool.add_networks pool nets).input_times
          = pool.input_times ++ (nets.map (fun n => n.input_times)).flatten ∧
      (NetworkPool.add_networks pool nets).spatial_split
          = pool.spatial_split
            ++ netBounds pool.populations.length pool.input_times.length nets
  | [], pool => by simp [NetworkPool.add_networks, netBounds]
  | n :: ns, pool => by
    have ih := add_networks_fields ns (NetworkPool.add_network pool n)
    simp only [NetworkPool.add_networks, List.foldl_cons] at ih ⊢
    rw [add_network_eq] at ih ⊢
    simp only [List.length_append] at ih
    rw [netBounds]
    refine ⟨?_, ?_, ?_⟩
    · rw [ih.1]
      simp [List.append_assoc]
    · rw [ih.2.1]
      simp [List.append_assoc]
    · rw [ih.2.2]
      simp [List.append_assoc]

theorem netBounds_chain :
    ∀ (nets : List Network) (p q : ℕ),
      (∀ net ∈ nets, net.populations ≠ [] ∧ net.input_times ≠ []) →
      List.Chain' (fun a b : ℕ × ℕ => a.1 < b.1 ∧ a.2 < b.2)
        ((p, q) :: netBounds p q nets)
  | [], p, q, _ => by simp [netBounds]
  | n :: ns, p, q, h => by
    rw [netBounds, List.chain'_cons]
    have hp : 0 < n.populations.length :=
      List.length_pos.mpr (h n (List.mem_cons_self _ _)).1
    have hq : 0 < n.input_times.length :=
      List.length_pos.mpr (h n (List.mem_cons_self _ _)).2
    exact ⟨⟨by omega, by omega⟩,
      netBounds_chain ns _ _ (fun m hm => h m (List.mem_cons_of_mem _ hm))⟩

theorem netBounds_fst :
    ∀ (nets : List Network) (p q : ℕ),
      (netBounds p q nets).map Prod.fst = cumLens p (nets.map (fun n => n.populations))
  | [], _, _ => rfl
  | n :: ns, p, q => by
    rw [netBounds, List.map_cons, List.map_cons, cumLens, netBounds_fst ns]

theorem netBounds_snd :
    ∀ (nets : List Network) (p q : ℕ),
      (netBounds p q nets).map Prod.snd = cumLens q (nets.map (fun n => n.input_times))
  | [], _, _ => rfl
  | n :: ns, p, q => by
    rw [netBounds, List.map_cons, List.map_cons, cumLens, netBounds_snd ns]

/-- Slicing a concatenation at its own cumulative lengths recovers exactly the
constituent lists. -/
theorem sliceAt_cum {α : Type} :
    ∀ (ls : List (List α)) (pre : List α),
      NetworkPool.sliceAt pre.length (cumLens pre.length ls) (pre ++ ls.flatten) = ls
  | [], pre => by simp [cumLens, NetworkPool.sliceAt]
  | l :: ls, pre => by
    rw [cumLens, NetworkPool.sliceAt, List.flatten_cons]
    refine congrArg₂ (· :: ·) ?_ ?_
    · rw [Nat.add_sub_cancel_left, List.drop_left, List.take_left]
    · have ih := sliceAt_cum ls (pre ++ l)
      rw [List.length_append, List.append_assoc] at ih
      exact ih

theorem sliceAt_length {α : Type} :
    ∀ (bs : List ℕ) (a : ℕ) (l : List α),
      (NetworkPool.sliceAt a bs l).length = bs.length
  | [], _, _ => rfl
  | b :: bs, a, l => by
    simp [NetworkPool.sliceAt, sliceAt_length bs b l]

theorem cumLens_chain {α : Type} :
    ∀ (ls : List (List α)) (a : ℕ), List.Chain' (· ≤ ·) (a :: cumLens a ls)
  | [], _ => by simp [cumLens]
  | l :: ls, a => by
    rw [cumLens, List.chain'_cons]
    exact ⟨by omega, cumLens_chain ls _⟩

theorem cumLens_getLastD {α : Type} :
    ∀ (ls : List (List α)) (a : ℕ),
      (cumLens a ls).getLastD a = a + (ls.map List.length).sum
  | [], a => by simp [cumLens]
  | l :: ls, a => by
    rw [cumLens, List.getLastD_cons, cumLens_getLastD ls, List.map_cons, List.sum_cons]
    omega

/-- Flattening the slices of `l` along a non-decreasing boundary list ending
at `l.length` gives back `l.drop a`: the slices are a complete,
non-overlapping partition of the suffix. -/
theorem sliceAt_flatten_drop {α : Type} :
    ∀ (bs : List ℕ) (a : ℕ) (l : List α),
      List.Chain' (· ≤ ·) (a :: bs) → bs.getLastD a = l.length →
      (NetworkPool.sliceAt a bs l).flatten = l.drop a
  | [], a, l, _, hl => by
    rw [NetworkPool.sliceAt, List.flatten_nil]
    rw [List.getLastD_nil] at hl
    rw [eq_comm, List.drop_eq_nil_iff]
    omega
  | b :: bs, a, l, hc, hl => by
    rw [List.chain'_cons] at hc
    rw [List.getLastD_cons] at hl
    rw [NetworkPool.sliceAt, List.flatten_cons, sliceAt_flatten_drop bs b l hc.2 hl]
    have hdd : l.drop b = (l.drop a).drop (b - a) := by
      rw [List.drop_drop]
      congr 1
      omega
    rw [hdd, List.take_append_drop]

/-! ### Lemmas about the spike-train time origin -/

theorem omin_none_right (a : Option ℚ) : NetworkBuilder.omin a none = a := by
  cases a <;> rfl

theorem omin_assoc (a b c : Option ℚ) :
    NetworkBuilder.omin (NetworkBuilder.omin a b) c
      = NetworkBuilder.omin a (NetworkBuilder.omin b c) := by
  cases a <;> cases b <;> cases c <;> simp [NetworkBuilder.omin, min_assoc]

theorem min?_append :
    ∀ (l1 l2 : List ℚ), (l1 ++ l2).min? = NetworkBuilder.omin l1.min? l2.min?
  | [], l2 => rfl
  | a :: l1, l2 => by
    have ih := min?_append l1 l2
    have h1 : ∀ (x : ℚ) (xs : List ℚ), (x :: xs).min? = some (xs.foldl min x) := fun x xs => rfl
    rw [List.cons_append, h1, h1]
    have hfold : ∀ (xs : List ℚ) (x : ℚ) (l : List ℚ),
        (xs ++ l).foldl min x = (l.foldl min (xs.foldl min x)) := by
      intro xs x l
      rw [List.foldl_append]
    rw [hfold]
    cases h2 : l2.min? with
    | none =>
      have : l2 = [] := by
        cases l2 with
        | nil => rfl
        | cons b bs => simp [h1] at h2
      subst this
      simp [NetworkBuilder.omin]
    | some b2 =>
      obtain ⟨b, bs, rfl⟩ : ∃ b bs, l2 = b :: bs := by
        cases l2 with
        | nil => simp at h2
        | cons b bs => exact ⟨b, bs, rfl⟩
      rw [h1] at h2
      have h2v : bs.foldl min b = b2 := by injection h2
      simp only [NetworkBuilder.omin]
      rw [List.foldl_cons]
      have hswap : ∀ (l : List ℚ) (x y : ℚ), l.foldl min (min x y) = min x (l.foldl min y) := by
        intro l
        induction l with
        | nil => intro x y; rfl
        | cons c cs ih2 =>
          intro x y
          rw [List.foldl_cons, List.foldl_cons, min_assoc, ih2]
      rw [hswap, h2v]

theorem foldl_omin_acc :
    ∀ (ls : List (List ℚ)) (acc : Option ℚ),
      (ls.map List.min?).foldl NetworkBuilder.omin acc
        = NetworkBuilder.omin acc ls.flatten.min?
  | [], acc => by
    rw [List.map_nil, List.foldl_nil, List.flatten_nil]
    exact (omin_none_right acc).symm
  | l :: ls, acc => by
    rw [List.map_cons, List.foldl_cons, foldl_omin_acc ls, List.flatten_cons,
      min?_append, omin_assoc]

theorem foldl_omin_eq (times : List (List ℚ)) (r : Option ℚ) (rs : List (Option ℚ))
    (h : times.map List.min? = r :: rs) :
    rs.foldl NetworkBuilder.omin r = times.flatten.min? := by
  have h2 := foldl_omin_acc times none
  rw [h, List.foldl_cons] at h2
  have h3 : NetworkBuilder.omin none r = r := rfl
  rw [h3] at h2
  rw [h2]
  rfl

theorem min_shift (c d x y : ℚ) :
    min (x - c + d) (y - c + d) = min x y - c + d := by
  rw [← min_sub_sub_right, ← min_add_add_right]

theorem foldl_min_shift (c d : ℚ) :
    ∀ (as : List ℚ) (a : ℚ),
      (as.map (fun x => x - c + d)).foldl min (a - c + d) = as.foldl min a - c + d
  | [], a => rfl
  | b :: bs, a => by
    rw [List.map_cons, List.foldl_cons, List.foldl_cons, min_shift,
      foldl_min_shift c d bs (min a b)]

theorem min?_map_shift (l : List ℚ) (c d : ℚ) :
    (l.map (fun x => x - c + d)).min? = l.min?.map (fun x => x - c + d) := by
  cases l with
  | nil => rfl
  | cons a as =>
    have h1 : ∀ (x : ℚ) (xs : List ℚ), (x :: xs).min? = some (xs.foldl min x) :=
      fun x xs => rfl
    rw [List.map_cons, h1, h1, Option.map_some', foldl_min_shift]

theorem bst_none_of_N0 (m : ℕ) (X : ℕ → ℕ → ℕ) (time_offs : ℚ) (s : ℕ)
    (ips : List InputParameters) (delay : ℚ) (oracle : ℕ → ℕ → ℕ → ℕ → Draw) :
    NetworkBuilder.build_spike_trains 0 m X time_offs s ips delay oracle = none := by
  rw [NetworkBuilder.build_spike_trains]
  split
  · rfl
  · simp

theorem bst_shift (N m : ℕ) (X : ℕ → ℕ → ℕ) (time_offs : ℚ) (s : ℕ)
    (ips : List InputParameters) (delay : ℚ) (oracle : ℕ → ℕ → ℕ → ℕ → Draw)
    (hN : N ≠ 0) (hsm : s * m ≠ 0) :
    ∃ tr tg sp,
      NetworkBuilder.build_spike_trains N m X time_offs s ips delay oracle
        = some (tr, tg, sp) ∧
      (tr.flatten = [] ∨ tr.flatten.min? = some time_offs) := by
  rw [NetworkBuilder.build_spike_trains]
  split
  · next hsc =>
    exfalso
    apply hsm
    have h2 := congrArg List.length hsc
    simpa using h2
  · next r rs hsc =>
    rw [if_neg hN]
    have hmt := foldl_omin_eq _ r rs hsc
    cases hmtv : rs.foldl NetworkBuilder.omin r with
    | none =>
      rw [hmtv] at hmt
      refine ⟨_, _, _, rfl, ?_⟩
      left
      cases hfl : (List.flatten (List.map _ (List.range (s * m)))) with
      | nil => rfl
      | cons c cs =>
        rw [hfl] at hmt
        exact absurd hmt (by simp [List.min?])
    | some mt =>
      rw [hmtv] at hmt
      refine ⟨_, _, _, rfl, ?_⟩
      right
      rw [← List.map_flatten, min?_map_shift, ← hmt, Option.map_some']
      simp

/-! ### Lemmas about `build_topology` -/

/-- The connection `build_topology` creates from replica `k` of input bit `i`
to replica `l` of output bit `j`. -/
def connAt (s : ℕ) (w sigma_w : ℚ) (wdraw : ℕ → ℕ → ℕ → ℕ → ℚ) (i j k l : ℕ) :
    Connection :=
  ⟨(0, i * s + k), (1, j * s + l),
    TopologyParameters.draw_weight w sigma_w (wdraw i j k l), 0⟩

theorem build_topology_conns (m n s nt : ℕ) (mem : ℕ → ℕ → ℕ) (w sw : ℚ)
    (wdraw : ℕ → ℕ → ℕ → ℕ → ℚ) :
    (NetworkBuilder.build_topology m n s nt mem w sw wdraw).2
      = (List.range m).flatMap (fun i =>
          (List.range n).flatMap (fun j =>
            if mem i j ≠ 0 then
              (List.range s).flatMap (fun k =>
                (List.range s).map (fun l => connAt s w sw wdraw i j k l))
            else [])) := rfl

theorem mem_build_topology_iff (m n s nt : ℕ) (mem : ℕ → ℕ → ℕ) (w sw : ℚ)
    (wdraw : ℕ → ℕ → ℕ → ℕ → ℚ) (c : Connection) :
    c ∈ (NetworkBuilder.build_topology m n s nt mem w sw wdraw).2 ↔
      ∃ i j k l, i < m ∧ j < n ∧ k < s ∧ l < s ∧ mem i j ≠ 0 ∧
        c = connAt s w sw wdraw i j k l := by
  rw [build_topology_conns]
  simp only [List.mem_flatMap, List.mem_range, List.mem_map]
  constructor
  · rintro ⟨i, hi, j, hj, hc⟩
    by_cases hm : mem i j ≠ 0
    · rw [if_pos hm] at hc
      simp only [List.mem_flatMap, List.mem_range, List.mem_map] at hc
      obtain ⟨k, hk, l, hl, hc2⟩ := hc
      exact ⟨i, j, k, l, hi, hj, hk, hl, hm, hc2.symm⟩
    · rw [if_neg hm] at hc
      simp at hc
  · rintro ⟨i, j, k, l, hi, hj, hk, hl, hm, rfl⟩
    refine ⟨i, hi, j, hj, ?_⟩
    rw [if_pos hm]
    simp only [List.mem_flatMap, List.mem_range, List.mem_map]
    exact ⟨k, hk, l, hl, rfl⟩

theorem connAt_inj (s : ℕ) (w sw : ℚ) (wdraw : ℕ → ℕ → ℕ → ℕ → ℚ)
    {i1 j1 k1 l1 i2 j2 k2 l2 : ℕ} (hk1 : k1 < s) (hl1 : l1 < s)
    (hk2 : k2 < s) (hl2 : l2 < s)
    (h : connAt s w sw wdraw i1 j1 k1 l1 = connAt s w sw wdraw i2 j2 k2 l2) :
    i1 = i2 ∧ j1 = j2 ∧ k1 = k2 ∧ l1 = l2 := by
  have h1 : i1 * s + k1 = i2 * s + k2 := congrArg (fun c => c.pre.2) h
  have h2 : j1 * s + l1 = j2 * s + l2 := congrArg (fun c => c.post.2) h
  have hi : i1 = i2 := by
    rcases Nat.lt_trichotomy i1 i2 with hlt | heq | hgt
    · have h3 : (i1 + 1) * s ≤ i2 * s := Nat.mul_le_mul_right s hlt
      rw [Nat.succ_mul] at h3
      omega
    · exact heq
    · have h3 : (i2 + 1) * s ≤ i1 * s := Nat.mul_le_mul_right s hgt
      rw [Nat.succ_mul] at h3
      omega
  have hj : j1 = j2 := by
    rcases Nat.lt_trichotomy j1 j2 with hlt | heq | hgt
    · have h3 : (j1 + 1) * s ≤ j2 * s := Nat.mul_le_mul_right s hlt
      rw [Nat.succ_mul] at h3
      omega
    · exact heq
    · have h3 : (j2 + 1) * s ≤ j1 * s := Nat.mul_le_mul_right s hgt
      rw [Nat.succ_mul] at h3
      omega
  subst hi
  subst hj
  exact ⟨rfl, rfl, by omega, by omega⟩

theorem nodup_build_topology (m n s nt : ℕ) (mem : ℕ → ℕ → ℕ) (w sw : ℚ)
    (wdraw : ℕ → ℕ → ℕ → ℕ → ℚ) :
    (NetworkBuilder.build_topology m n s nt mem w sw wdraw).2.Nodup := by
  rw [build_topology_conns]
  have hmemmid : ∀ i (a : Connection),
      a ∈ (List.range n).flatMap (fun j =>
        if mem i j ≠ 0 then
          (List.range s).flatMap (fun k =>
            (List.range s).map (fun l => connAt s w sw wdraw i j k l))
        else []) →
      ∃ j k l, j < n ∧ k < s ∧ l < s ∧ a = connAt s w sw wdraw i j k l := by
    intro i a ha
    simp only [List.mem_flatMap, List.mem_range, List.mem_map] at ha
    obtain ⟨j, hj, hc⟩ := ha
    by_cases hm : mem i j ≠ 0
    · rw [if_pos hm] at hc
      simp only [List.mem_flatMap, List.mem_range, List.mem_map] at hc
      obtain ⟨k, hk, l, hl, hc2⟩ := hc
      exact ⟨j, k, l, hj, hk, hl, hc2.symm⟩
    · rw [if_neg hm] at hc
      simp at hc
  rw [List.nodup_flatMap]
  constructor
  · intro i hi
    rw [List.nodup_flatMap]
    constructor
    · intro j hj
      by_cases hm : mem i j ≠ 0
      · rw [if_pos hm, List.nodup_flatMap]
        constructor
        · intro k hk
          refine List.Nodup.map_on ?_ (List.nodup_range s)
          intro x hx y hy hxy
          rw [List.mem_range] at hx hy
          have := connAt_inj s w sw wdraw (by simp at hk; omega) hx
            (by simp at hk; omega) hy hxy
          exact this.2.2.2
        · refine List.Pairwise.imp ?_ (List.pairwise_lt_range s)
          intro k1 k2 hklt a ha1 ha2
          simp only [List.mem_map, List.mem_range] at ha1 ha2
          obtain ⟨l1, hl1, ha1e⟩ := ha1
          obtain ⟨l2, hl2, ha2e⟩ := ha2
          have : k1 = k2 := by
            have h1 : i * s + k1 = i * s + k2 := by
              have := congrArg (fun c => c.pre.2) (ha1e.trans ha2e.symm)
              exact this
            omega
          omega
      · rw [if_neg hm]
        exact List.nodup_nil
    · refine List.Pairwise.imp ?_ (List.pairwise_lt_range n)
      intro j1 j2 hjlt a ha1 ha2
      have hb1 : a ∈ (if mem i j1 ≠ 0 then
          (List.range s).flatMap (fun k =>
            List.map (fun l => connAt s w sw wdraw i j1 k l) (List.range s))
        else []) := ha1
      have hb2 : a ∈ (if mem i j2 ≠ 0 then
          (List.range s).flatMap (fun k =>
            List.map (fun l => connAt s w sw wdraw i j2 k l) (List.range s))
        else []) := ha2
      by_cases hm1 : mem i j1 ≠ 0
      case neg => rw [if_neg hm1] at hb1; simp at hb1
      case pos =>
      by_cases hm2 : mem i j2 ≠ 0
      case neg => rw [if_neg hm2] at hb2; simp at hb2
      case pos =>
      rw [if_pos hm1] at hb1
      rw [if_pos hm2] at hb2
      simp only [List.mem_flatMap, List.mem_range, List.mem_map] at hb1 hb2
      obtain ⟨k1, hk1, l1, hl1, he1⟩ := hb1
      obtain ⟨k2, hk2, l2, hl2, he2⟩ := hb2
      have hpost : j1 * s + l1 = j2 * s + l2 :=
        congrArg (fun c => c.post.2) (he1.trans he2.symm)
      have h3 : (j1 + 1) * s ≤ j2 * s := Nat.mul_le_mul_right s hjlt
      rw [Nat.succ_mul] at h3
      omega
  · refine List.Pairwise.imp ?_ (List.pairwise_lt_range m)
    intro i1 i2 hilt a ha1 ha2
    obtain ⟨j1, k1, l1, hj1, hk1, hl1, he1⟩ := hmemmid i1 a ha1
    obtain ⟨j2, k2, l2, hj2, hk2, hl2, he2⟩ := hmemmid i2 a ha2
    have hpre : i1 * s + k1 = i2 * s + k2 :=
      congrArg (fun c => c.pre.2) (he1.symm.trans he2)
    have h3 : (i1 + 1) * s ≤ i2 * s := Nat.mul_le_mul_right s hilt
    rw [Nat.succ_mul] at h3
    omega

/-! ### Claim theorems -/

/-- C2: for equal-shaped spike-time and tag trains and all bounds `k0, k1`,
`split` returns one (possibly empty) list per input neuron containing exactly
the events whose tag `k` satisfies `k0 ≤ k < k1`, with each retained tag
rebased to `k - k0` and the relative order of events preserved within each
neuron (the retained, rebased events are the order-preserving filter of the
original zipped event list). -/
theorem C2_split_spec (times : List (List ℚ)) (indices : List (List ℕ)) (k0 k1 : ℕ)
    (hrow : List.Forall₂ (fun ts ks => ts.length = ks.length) times indices) :
    (NetworkInstance.split times indices k0 k1).1.length = times.length ∧
    (NetworkInstance.split times indices k0 k1).2.length = times.length ∧
    ∀ i, ((NetworkInstance.split times indices k0 k1).1.getD i []).zip
           ((NetworkInstance.split times indices k0 k1).2.getD i []) =
         (((times.getD i []).zip (indices.getD i [])).filter
             (fun p => decide (k0 ≤ p.2 ∧ p.2 < k1))).map (fun p => (p.1, p.2 - k0)) := by
  induction hrow with
  | nil => exact ⟨rfl, rfl, fun i => by simp [NetworkInstance.split]⟩
  | cons h hrest ih =>
    refine ⟨?_, ?_, ?_⟩
    · simp [NetworkInstance.split] at ih ⊢
      omega
    · simp [NetworkInstance.split] at ih ⊢
      omega
    · intro i
      cases i with
      | zero =>
        simp only [NetworkInstance.split, List.zipWith_cons_cons, List.map_cons,
          List.getD_cons_zero]
        rw [splitRow_eq _ _ _ _ h]
        exact List.zip_unzip _
      | succ n =>
        have h2 := ih.2.2 n
        simpa [NetworkInstance.split] using h2

/-- Witness for C2 at a concrete input. -/
theorem C2_witness :
    List.Forall₂ (fun (ts : List ℚ) (ks : List ℕ) => ts.length = ks.length)
      [[1, 2, 3], [4]] [[0, 1, 2], [1]] ∧
    (NetworkInstance.split [[1, 2, 3], [4]] [[0, 1, 2], [1]] 1 3).1.length = 2 :=
  ⟨by simp, (C2_split_spec [[1, 2, 3], [4]] [[0, 1, 2], [1]] 1 3 (by simp)).1⟩

/-- C3: `add_network` appends the unit's populations, connections, input
spike trains and input tags to the merged structure, rewrites both endpoints
of each newly added connection by adding the pre-merge population count to
its population index (leaving local neuron indices, weights and delays
unchanged, per `shiftConn`), and appends exactly one spatial-split boundary
equal to the post-merge (population count, input-train count) pair. -/
theorem C3_add_network_spec (pool : Pool) (net : Network) :
    NetworkPool.add_network pool net =
      { populations := pool.populations ++ net.populations,
        connections := pool.connections ++
          net.connections.map (NetworkPool.shiftConn pool.populations.length),
        input_times := pool.input_times ++ net.input_times,
        input_indices := pool.input_indices ++ net.input_indices,
        input_split := pool.input_split ++ [net.input_split],
        spatial_split := pool.spatial_split ++
          [(pool.populations.length + net.populations.length,
            pool.input_times.length + net.input_times.length)] } :=
  add_network_eq pool net

/-- C5 (code bug): `calculate_latencies` uses `np.lexsort((kF, tF))`, whose
primary key is the time `tF`, so the flat tag arrays are not sorted by sample
when a later sample spikes earlier.  For input spikes at times `5, 10` with
tags `1, 0` and one output spike at time `6` with tag `1`, sample `1` has
both an input and an output spike, yet the returned latency for sample `1`
is infinite (`none`) instead of `6 - 5 = 1` as the claim (and the
function's own docstring) requires. -/
theorem C5_latencies_bug :
    NetworkAnalysis.calculate_latencies ⟨[[5, 10]], [[1, 0]], [[6]], [[1]]⟩ 2
      = some [none, none] ∧
    (1 : ℕ) ∈ List.flatten [[1, 0]] ∧ (1 : ℕ) ∈ List.flatten [[1]] := by
  refine ⟨by decide, by decide, by decide⟩

/-- C6 (code bug): `calculate_output_matrix` relies on the same
time-primary `lexsort`; with output spikes at times `5, 10` carrying tags
`1, 0` (multiplicity 1, burst size 1, one output bit, two samples), the
bisection range for sample `0` covers both spikes and that for sample `1` is
empty, so the matrix is `[[2], [0]]` instead of the per-(sample, bit-group)
counts `[[1], [1]]` the claim requires. -/
theorem C6_output_matrix_bug :
    NetworkAnalysis.calculate_output_matrix ⟨[[]], [[]], [[5, 10]], [[1, 0]]⟩ 1 2 1 1
      = some [[2], [0]] := by
  have hfl : NetworkInstance.flatten [[5, 10]] [[1, 0]] true
      = some [((5 : ℚ), 1, 0), (10, 0, 0)] := by decide
  simp only [NetworkAnalysis.calculate_output_matrix]
  rw [hfl]
  simp only [Nat.cast_one, mul_one, div_one]
  decide

/-- Counterexample for C10: at the zero-neuron input-train list `[]`,
`match_static` does not return the output trains at all: Python's `flatten`
raises `TypeError` (`reduce` of the empty `map(len, times)` with no
initialiser), modelled as `none`, refuting the claim's universal
quantification over every list of input trains. -/
theorem C10_counterexample :
    NetworkInstance.match_static [] [] [[1]] = none := by decide

/-- C10 (amended): for every input-train list with at least one neuron and
tag lists at least as long as the spike-time lists (the inputs on which
Python's `flatten` does not raise; equal-shaped tagged trains in
particular), `match_static` returns `some` result whose first component is
the output spike-time trains unchanged; the tag lists have the same outer
length as the output trains and, per neuron, exactly one tag per output
spike; and every assigned tag is either `0` or one of the supplied input
tags. -/
theorem C10_match_amended (times : List (List ℚ)) (inds : List (List ℕ))
    (outs : List (List ℚ)) (hne : times ≠ [])
    (hsh : ∀ i, i < times.length →
      (times.getD i []).length ≤ (inds.getD i []).length) :
    ∃ tags,
      NetworkInstance.match_static times inds outs = some (outs, tags) ∧
      tags.length = outs.length ∧
      (∀ i, (tags.getD i []).length = (outs.getD i []).length) ∧
      ∀ g ∈ tags.flatten, g = 0 ∨ g ∈ inds.flatten := by
  have hfl := flatten_false_eq_some times inds hne hsh
  refine ⟨outs.map (fun row => row.map
      (matchTagAt (List.insertionSort timeRel (NetworkInstance.flattenRaw times inds)))),
    match_static_eq_map times inds outs _ hfl, List.length_map _ _, ?_, ?_⟩
  · intro i
    by_cases hi : i < outs.length
    · rw [List.getD_eq_getElem _ _ (by simpa using hi), List.getElem_map,
        List.getD_eq_getElem _ _ hi, List.length_map]
    · rw [List.getD_eq_default _ _ (by simpa using hi),
        List.getD_eq_default _ _ (by omega)]
      rfl
  · intro g hg
    rw [List.mem_flatten] at hg
    obtain ⟨row, hrow, hgrow⟩ := hg
    rw [List.mem_map] at hrow
    obtain ⟨orow, horow, hrow2⟩ := hrow
    subst hrow2
    rw [List.mem_map] at hgrow
    obtain ⟨t, ht, hgt⟩ := hgrow
    subst hgt
    exact matchTagAt_mem times inds t

/-- C9 (code bug): on event-free spike streams `calculate_latencies` does
return the `+inf` sentinel (`none`) for every sample and
`calculate_output_matrix` does return zero-count cells, but
`build_analysis_static` with no recorded temporal-split boundaries computes
`max(map(max, input_indices))`, and Python `max` raises `ValueError` on the
empty per-neuron event lists (modelled as `none`), so the claim that it does
not raise fails exactly in the no-boundaries case (with a boundary recorded
it succeeds). -/
theorem C9_empty_streams :
    NetworkInstance.build_analysis_static [[]] [[]] [[]] [] = none ∧
    (NetworkInstance.build_analysis_static [[]] [[]] [[]] [2]).isSome = true ∧
    NetworkAnalysis.calculate_latencies ⟨[[]], [[]], [[]], [[]]⟩ 2
      = some [none, none] ∧
    NetworkAnalysis.calculate_output_matrix ⟨[[]], [[]], [[]], [[]]⟩ 1 2 1 1
      = some [[0], [0]] := by
  refine ⟨by decide, by decide, by decide, ?_⟩
  have hfl : NetworkInstance.flatten [[]] [[]] true = some [] := by decide
  simp only [NetworkAnalysis.calculate_output_matrix]
  rw [hfl]
  simp only [Nat.cast_one, mul_one, div_one]
  decide

/-- Counterexample for C1: for input spikes at times `0, 1` with tags `0, 1`
and an output spike exactly at time `1`, the nearest input spike with time
`≤ 1` is the one at time `1` with tag `1` (as `specMatchTag`, modelled from
the spec's words, computes), but `match_static` assigns tag `0`: after
`bisect_left` the index is unconditionally decremented, so the code uses the
latest input spike with time strictly less than `t`. -/
theorem C1_counterexample :
    NetworkInstance.match_static [[0, 1]] [[0, 1]] [[1]] = some ([[1]], [[0]]) ∧
    specMatchTag [((0 : ℚ), (0 : ℕ)), (1, 1)] 1 = 1 ∧
    allPairs [[0, 1]] [[0, 1]] = [((0 : ℚ), (0 : ℕ)), (1, 1)] := by
  refine ⟨by decide, by decide, by decide⟩

/-- C1 (amended): for a nonempty, equal-shaped list of tagged input trains
(the inputs on which Python's `flatten` does not raise), `match_static`
returns `some` result that keeps the output trains and assigns to each
output spike at time `t` the tag of an input spike achieving the greatest
input-spike time *strictly less than* `t`; if no input spike lies strictly
below `t`, it assigns the tag of an input spike achieving the minimal input
time (the earliest); if the input stream has no spikes at all, it assigns
tag `0`; and no output spike is left without a tag (the tag lists mirror
the output shape). -/
theorem C1_match_amended (times : List (List ℚ)) (inds : List (List ℕ))
    (outs : List (List ℚ)) (hne : times ≠ [])
    (hsh : List.Forall₂ (fun ts ks => ts.length = ks.length) times inds) :
    ∃ tags,
      NetworkInstance.match_static times inds outs = some (outs, tags) ∧
      tags.length = outs.length ∧
      (∀ i, (tags.getD i []).length = (outs.getD i []).length) ∧
      ∀ i j, j < (outs.getD i []).length →
        ((∃ q ∈ allPairs times inds, q.1 < (outs.getD i []).getD j 0) →
          ∃ q ∈ allPairs times inds,
            q.2 = (tags.getD i []).getD j 0 ∧
            q.1 < (outs.getD i []).getD j 0 ∧
            ∀ r ∈ allPairs times inds, r.1 < (outs.getD i []).getD j 0 → r.1 ≤ q.1) ∧
        ((¬ ∃ q ∈ allPairs times inds, q.1 < (outs.getD i []).getD j 0) →
          allPairs times inds ≠ [] →
          ∃ q ∈ allPairs times inds,
            q.2 = (tags.getD i []).getD j 0 ∧
            ∀ r ∈ allPairs times inds, q.1 ≤ r.1) ∧
        (allPairs times inds = [] → (tags.getD i []).getD j 0 = 0) := by
  have hfl := flatten_false_eq_some times inds hne (shape_le_of_forall₂ times inds hsh)
  refine ⟨outs.map (fun row => row.map
      (matchTagAt (List.insertionSort timeRel (NetworkInstance.flattenRaw times inds)))),
    match_static_eq_map times inds outs _ hfl, List.length_map _ _, ?_, ?_⟩
  · intro i
    by_cases hi : i < outs.length
    · rw [List.getD_eq_getElem _ _ (by simpa using hi), List.getElem_map,
        List.getD_eq_getElem _ _ hi, List.length_map]
    · rw [List.getD_eq_default _ _ (by simpa using hi),
        List.getD_eq_default _ _ (by omega)]
      rfl
  · intro i j hj
    have hrow : ((outs.map (fun row => row.map
        (matchTagAt (List.insertionSort timeRel
          (NetworkInstance.flattenRaw times inds))))).getD i [])
        = (outs.getD i []).map (matchTagAt (List.insertionSort timeRel
            (NetworkInstance.flattenRaw times inds))) := by
      by_cases hi : i < outs.length
      · rw [List.getD_eq_getElem _ _ (by simpa using hi), List.getElem_map,
          List.getD_eq_getElem _ _ hi]
      · rw [List.getD_eq_default _ _ (by simpa using hi),
          List.getD_eq_default _ _ (by omega)]
        rfl
    have hval : (((outs.map (fun row => row.map
        (matchTagAt (List.insertionSort timeRel
          (NetworkInstance.flattenRaw times inds))))).getD i []).getD j 0)
        = matchTagAt (List.insertionSort timeRel (NetworkInstance.flattenRaw times inds))
            ((outs.getD i []).getD j 0) := by
      rw [hrow, List.getD_eq_getElem _ _ (by simpa using hj), List.getElem_map,
        List.getD_eq_getElem _ _ hj]
    rw [hval]
    exact matchTagAt_spec times inds hsh ((outs.getD i []).getD j 0)

/-- Witness for C1 at a concrete input. -/
theorem C1_witness :
    (([[0, 1]] : List (List ℚ)) ≠ [] ∧
     List.Forall₂ (fun (ts : List ℚ) (ks : List ℕ) => ts.length = ks.length)
       [[0, 1]] [[0, 1]]) ∧
    (NetworkInstance.match_static [[0, 1]] [[0, 1]] [[2]]).isSome = true := by
  refine ⟨⟨by decide, by simp⟩, ?_⟩
  obtain ⟨tags, heq, -⟩ := C1_match_amended [[0, 1]] [[0, 1]] [[2]] (by decide) (by simp)
  rw [heq]
  rfl

/-- The boundary list has one entry per constituent list. -/
theorem cumLens_length {α : Type} :
    ∀ (ls : List (List α)) (a : ℕ), (cumLens a ls).length = ls.length
  | [], _ => rfl
  | l :: ls, a => by
    rw [cumLens, List.length_cons, List.length_cons, cumLens_length ls]

/-- C4 (amended): in every pool reached from an empty pool by a sequence of
`add_network` calls whose added units each have at least one population and
at least one input train, the spatial-split boundaries are strictly
increasing in both components (even from the implicit origin `(0, 0)`); and
unconditionally, slicing the merged input trains and populations at
consecutive boundaries recovers exactly each constituent unit's lists, and
slicing any simulator output of matching length yields a complete,
non-overlapping partition (the slices, one per unit, concatenate back to the
whole output), so `build_analysis` attributes every output event to exactly
one constituent unit. -/
theorem C4_pool_partition (nets : List Network)
    (h : ∀ net ∈ nets, net.populations ≠ [] ∧ net.input_times ≠ []) :
    List.Chain' (fun a b : ℕ × ℕ => a.1 < b.1 ∧ a.2 < b.2)
      ((0, 0) :: (NetworkPool.add_networks NetworkPool.emptyPool nets).spatial_split) ∧
    NetworkPool.sliceAt 0
        ((NetworkPool.add_networks NetworkPool.emptyPool nets).spatial_split.map Prod.snd)
        (NetworkPool.add_networks NetworkPool.emptyPool nets).input_times
      = nets.map (fun n => n.input_times) ∧
    NetworkPool.sliceAt 0
        ((NetworkPool.add_networks NetworkPool.emptyPool nets).spatial_split.map Prod.fst)
        (NetworkPool.add_networks NetworkPool.emptyPool nets).populations
      = nets.map (fun n => n.populations) ∧
    ∀ output : List (List ℚ),
      output.length = (NetworkPool.add_networks NetworkPool.emptyPool nets).populations.length →
      (NetworkPool.sliceAt 0
          ((NetworkPool.add_networks NetworkPool.emptyPool nets).spatial_split.map Prod.fst)
          output).flatten = output ∧
      (NetworkPool.sliceAt 0
          ((NetworkPool.add_networks NetworkPool.emptyPool nets).spatial_split.map Prod.fst)
          output).length = nets.length := by
  obtain ⟨hpop, htimes, hsplit⟩ := add_networks_fields nets NetworkPool.emptyPool
  have hpop2 : (NetworkPool.add_networks NetworkPool.emptyPool nets).populations
      = (nets.map (fun n => n.populations)).flatten := by
    rw [hpop]; rfl
  have htimes2 : (NetworkPool.add_networks NetworkPool.emptyPool nets).input_times
      = (nets.map (fun n => n.input_times)).flatten := by
    rw [htimes]; rfl
  have hsplit2 : (NetworkPool.add_networks NetworkPool.emptyPool nets).spatial_split
      = netBounds 0 0 nets := by
    rw [hsplit]; rfl
  refine ⟨?_, ?_, ?_, ?_⟩
  · rw [hsplit2]
    exact netBounds_chain nets 0 0 h
  · rw [hsplit2, htimes2, netBounds_snd]
    simpa using sliceAt_cum (nets.map (fun n => n.input_times)) []
  · rw [hsplit2, hpop2, netBounds_fst]
    simpa using sliceAt_cum (nets.map (fun n => n.populations)) []
  · intro output hlen
    rw [hsplit2, netBounds_fst]
    constructor
    · have hchain := cumLens_chain (nets.map (fun n => n.populations)) 0
      have hlast : (cumLens 0 (nets.map (fun n => n.populations))).getLastD 0
          = output.length := by
        rw [cumLens_getLastD, hlen, hpop2, List.length_flatten]
        simp [Function.comp]
      have := sliceAt_flatten_drop (cumLens 0 (nets.map (fun n => n.populations)))
        0 output hchain hlast
      simpa using this
    · rw [sliceAt_length, cumLens_length, List.length_map]

/-- Counterexample for C4: adding two degenerate units with no populations
and no input trains produces the boundary list `[(0, 0), (0, 0)]`, which is
not strictly increasing, refuting the unrestricted claim. -/
theorem C4_counterexample :
    ¬ List.Chain' (fun a b : ℕ × ℕ => a.1 < b.1 ∧ a.2 < b.2)
      (NetworkPool.add_networks NetworkPool.emptyPool
        [⟨[], [], [], [], []⟩, ⟨[], [], [], [], []⟩]).spatial_split := by
  have h : (NetworkPool.add_networks NetworkPool.emptyPool
      [⟨[], [], [], [], []⟩, ⟨[], [], [], [], []⟩]).spatial_split
      = [(0, 0), (0, 0)] := by decide
  rw [h]
  simp [List.chain'_cons]

/-- Witness for C4 at a concrete one-unit pool. -/
theorem C4_witness :
    (∀ net ∈ [(⟨[⟨1, 0⟩], [], [[0]], [[0]], []⟩ : Network)],
      net.populations ≠ [] ∧ net.input_times ≠ []) ∧
    List.Chain' (fun a b : ℕ × ℕ => a.1 < b.1 ∧ a.2 < b.2)
      ((0, 0) :: (NetworkPool.add_networks NetworkPool.emptyPool
        [⟨[⟨1, 0⟩], [], [[0]], [[0]], []⟩]).spatial_split) :=
  ⟨by decide, (C4_pool_partition [⟨[⟨1, 0⟩], [], [[0]], [[0]], []⟩] (by decide)).1⟩

/-- Counterexample for C7: for a zero-row sample matrix (`N = 0`) the claim
says all returned trains are empty, but the Python code raises `ValueError`
computing `range(N, N*(len+1), N)` with step `0` (modelled as `none`), so no
trains are returned at all. -/
theorem C7_counterexample :
    NetworkBuilder.build_spike_trains 0 2 (fun _ _ => 1) 5 1
      [⟨1, 100, 1, 0, 0, 0, 0⟩] 10 (fun _ _ _ _ => ⟨fun _ => 1, fun _ => 0, 0⟩)
      = none :=
  bst_none_of_N0 2 (fun _ _ => 1) 5 1 [⟨1, 100, 1, 0, 0, 0, 0⟩] 10
    (fun _ _ _ _ => ⟨fun _ => 1, fun _ => 0, 0⟩)

/-- C7 (amended): for a sample matrix with at least one row and at least one
neuron (`s * m ≠ 0`), `build_spike_trains` returns trains whose earliest
spike across all neurons equals the caller-supplied origin `time_offs`
(unless no spike was emitted at all, in which case all trains are empty and
no time is produced); the infinite sentinel minimum of an empty per-neuron
train is the identity of the minimum fold, so it is excluded from the
time-origin computation and no undefined time is ever produced.  For a
zero-row matrix the function instead raises (`none`, see the
counterexample). -/
theorem C7_time_origin (N m : ℕ) (X : ℕ → ℕ → ℕ) (time_offs : ℚ) (s : ℕ)
    (ips : List InputParameters) (delay : ℚ) (oracle : ℕ → ℕ → ℕ → ℕ → Draw)
    (hN : N ≠ 0) (hsm : s * m ≠ 0) :
    ∃ tr tg sp,
      NetworkBuilder.build_spike_trains N m X time_offs s ips delay oracle
        = some (tr, tg, sp) ∧
      (tr.flatten = [] ∨ tr.flatten.min? = some time_offs) :=
  bst_shift N m X time_offs s ips delay oracle hN hsm

/-- Witness for C7 at a concrete input. -/
theorem C7_witness :
    ((2 : ℕ) ≠ 0 ∧ 1 * 1 ≠ 0) ∧
    ∃ tr tg sp,
      NetworkBuilder.build_spike_trains 2 1 (fun _ _ => 1) 7 1
          [⟨1, 100, 1, 0, 0, 0, 0⟩] 10 (fun _ _ _ _ => ⟨fun _ => 1, fun _ => 0, 0⟩)
        = some (tr, tg, sp) ∧
      (tr.flatten = [] ∨ tr.flatten.min? = some 7) :=
  ⟨⟨by decide, by decide⟩,
    C7_time_origin 2 1 (fun _ _ => 1) 7 1 [⟨1, 100, 1, 0, 0, 0, 0⟩] 10
      (fun _ _ _ _ => ⟨fun _ => 1, fun _ => 0, 0⟩) (by decide) (by decide)⟩

/-- Counterexample for C8: with `sigma_w = 0` the drawn weight is the raw
configured `w` without clipping, so a configuration with `w = -1` produces a
connection with negative weight, refuting the claim that every drawn weight
is non-negative. -/
theorem C8_counterexample :
    ∃ c ∈ (NetworkBuilder.build_topology 1 1 1 1 (fun _ _ => 1) (-1) 0
      (fun _ _ _ _ => 0)).2, c.weight < 0 := by decide

/-- C8 (amended): `build_topology` creates exactly one source population of
size `m·s` and one output population of size `n·s`; for every nonzero entry
`(i, j)` of the trained memory's connectivity matrix and every replica pair
`(k, l)` it adds exactly one connection from input replica `i·s+k` to output
replica `j·s+l` (hence `s²` connections per nonzero entry), with the weight
drawn independently per connection by `draw_weight`; every connection stems
from a nonzero entry (none for zero entries) and has delay `0`; the weight
is non-negative whenever `sigma_w > 0` (it is clipped at zero), and equals
the raw configured `w` — possibly negative — when `sigma_w ≤ 0`. -/
theorem C8_topology (m n s nt : ℕ) (mem : ℕ → ℕ → ℕ) (w sw : ℚ)
    (wdraw : ℕ → ℕ → ℕ → ℕ → ℚ) :
    (NetworkBuilder.build_topology m n s nt mem w sw wdraw).1
      = [⟨m * s, TYPE_SOURCE⟩, ⟨n * s, nt⟩] ∧
    (∀ i j k l, i < m → j < n → k < s → l < s → mem i j ≠ 0 →
      ((NetworkBuilder.build_topology m n s nt mem w sw wdraw).2).count
        (connAt s w sw wdraw i j k l) = 1) ∧
    (∀ c ∈ (NetworkBuilder.build_topology m n s nt mem w sw wdraw).2,
      ∃ i j k l, i < m ∧ j < n ∧ k < s ∧ l < s ∧ mem i j ≠ 0 ∧
        c = connAt s w sw wdraw i j k l) ∧
    (∀ c ∈ (NetworkBuilder.build_topology m n s nt mem w sw wdraw).2,
      c.delay = 0 ∧ (0 < sw → 0 ≤ c.weight) ∧ (sw ≤ 0 → c.weight = w)) := by
  refine ⟨rfl, ?_, ?_, ?_⟩
  · intro i j k l hi hj hk hl hm
    exact List.count_eq_one_of_mem (nodup_build_topology m n s nt mem w sw wdraw)
      ((mem_build_topology_iff m n s nt mem w sw wdraw _).mpr
        ⟨i, j, k, l, hi, hj, hk, hl, hm, rfl⟩)
  · intro c hc
    exact (mem_build_topology_iff m n s nt mem w sw wdraw c).mp hc
  · intro c hc
    obtain ⟨i, j, k, l, _, _, _, _, _, rfl⟩ :=
      (mem_build_topology_iff m n s nt mem w sw wdraw c).mp hc
    refine ⟨rfl, ?_, ?_⟩
    · intro hsw
      show 0 ≤ TopologyParameters.draw_weight w sw (wdraw i j k l)
      rw [TopologyParameters.draw_weight, if_neg (not_le.mpr hsw)]
      exact le_max_left 0 _
    · intro hsw
      show TopologyParameters.draw_weight w sw (wdraw i j k l) = w
      rw [TopologyParameters.draw_weight, if_pos hsw]

/-- Witness for C8 at a concrete input. -/
theorem C8_witness :
    ((0 : ℕ) < 1 ∧ (1 : ℕ) ≠ 0) ∧
    (NetworkBuilder.build_topology 1 1 1 2 (fun _ _ => 1) 1 0 (fun _ _ _ _ => 0)).2.count
      (connAt 1 1 0 (fun _ _ _ _ => 0) 0 0 0 0) = 1 :=
  ⟨⟨by decide, by decide⟩,
    (C8_topology 1 1 1 2 (fun _ _ => 1) 1 0 (fun _ _ _ _ => 0)).2.1 0 0 0 0
      (by decide) (by decide) (by decide) (by decide) (by decide)⟩

/-- Witness for C10 at a concrete input. -/
theorem C10_witness :
    (([[1]] : List (List ℚ)) ≠ [] ∧
      ∀ i, i < ([[1]] : List (List ℚ)).length →
        (([[1]] : List (List ℚ)).getD i []).length
          ≤ (([[0]] : List (List ℕ)).getD i []).length) ∧
    (NetworkInstance.match_static [[1]] [[0]] [[2]]).isSome = true := by
  refine ⟨⟨by decide, ?_⟩, ?_⟩
  · intro i hi
    have h0 : i = 0 := by simpa using hi
    subst h0
    decide
  · obtain ⟨tags, heq, -⟩ := C10_match_amended [[1]] [[0]] [[2]] (by decide)
      (fun i hi => by
        have h0 : i = 0 := by simpa using hi
        subst h0
        decide)
    rw [heq]
    rfl
